import Mathlib

/-!
Verification of the hmmadn repository's Viterbi decoders.

Shallow embedding conventions:
* Probabilities are rationals (`ℚ`).
* Log-domain float values are `LogV := WithBot ℤ`: `⊥` models the IEEE value
  `-inf`, and a coerced integer models a finite float.  `WithBot` addition has
  `⊥` absorbing, exactly like `-inf + x` on floats (no `+inf`/NaN arises in the
  decoders for nonnegative probabilities).
* The real logarithm is an uninterpreted parameter `qlog : ℚ → ℤ`, applied only
  to positive arguments (its codomain is any ordered additive group of finite
  log-scores; the integers keep every definition kernel-computable);
  every claim under study is structural (which candidate
  wins, `-inf` propagation, error behaviour, lengths and sums), so no analytic
  property of `log` is needed.
* `math.log` (which raises `ValueError` on nonpositive input) is embedded as
  `mlog` returning `Except`; `numpy.log` (which yields `-inf` at `0`) is
  embedded as the total function `nlog`.
* Python lists that the code indexes are Lean `List`s read with `getD`; the
  default is never reached on the index ranges the code actually uses.
* In-place numpy mutation (`sum_delta_arrays`) is embedded by returning the
  post-call contents of both argument arrays together with the result.
-/

/-- Log-domain float values: `⊥` is `-inf`, a coerced integer a finite value. -/
abbrev LogV := WithBot ℤ

section Folds

/-- The running-maximum loop `max_ = -inf; for i in range(n): if temp > max_: max_ = temp`
from `Viterbi._get_dtj` (and the max part of the argmax loops). -/
def maxLoop (f : ℕ → LogV) (n : ℕ) : LogV :=
  (List.range n).foldl (fun mx i => if mx < f i then f i else mx) ⊥

/-- The argmax loop `max_value = -inf; max_S = None; for i in range(n): if temp > max_value: ...`
from `Viterbi._get_phi_tj`: tracks the running maximum and the first index attaining it. -/
def argmaxLoop (f : ℕ → LogV) (n : ℕ) : LogV × Option ℕ :=
  (List.range n).foldl (fun acc i => if acc.1 < f i then (f i, some i) else acc) (⊥, none)

end Folds




section Utils

/-- Embeds `hmmadn.utils.sum_delta_arrays`.  The source mutates both numpy arguments in
place (`delta1[delta1 == -inf] = 0`, same for `delta2`), sums them elementwise and
remaps exact-zero cells of the sum to `-inf`.  The embedding passes array state
explicitly: the result triple is (contents of `delta1` after the call, contents of
`delta2` after the call, returned array). -/
def sum_delta_arrays (delta1 delta2 : ℕ → ℕ → LogV) :
    (ℕ → ℕ → LogV) × (ℕ → ℕ → LogV) × (ℕ → ℕ → LogV) :=
  let d1 : ℕ → ℕ → LogV := fun d j => if delta1 d j = ⊥ then ((0 : ℤ) : LogV) else delta1 d j
  let d2 : ℕ → ℕ → LogV := fun d j => if delta2 d j = ⊥ then ((0 : ℤ) : LogV) else delta2 d j
  let res : ℕ → ℕ → LogV :=
    fun d j => if d1 d j + d2 d j = ((0 : ℤ) : LogV) then ⊥ else d1 d j + d2 d j
  (d1, d2, res)

end Utils

section HMM

variable (qlog : ℚ → ℤ)

/-- Embeds `math.log`: raises `ValueError` (modelled as `Except.error`) on nonpositive input. -/
def mlog (q : ℚ) : Except Unit ℤ :=
  if q ≤ 0 then .error () else .ok (qlog q)

/-- The data a `Viterbi` object is constructed from.  `b j t` stands for
`b_Sj_Ot_function(j, obs_list[t])`: the observations are opaque to the engine, so the
emission model composed with the observation list is a function of the state index and
the time index. -/
structure HMMModel where
  n : ℕ
  T : ℕ
  mu : ℕ → ℚ
  A : ℕ → ℕ → ℚ
  b : ℕ → ℕ → ℚ

namespace Viterbi

/-- Mutable decoder state: `self.deltas` and `self.phis`, which `__init__` creates once
and `_get_deltas_and_phis` appends to on every call. -/
structure HSt where
  deltas : List (List LogV)
  phis : List (List (Option ℕ))
deriving DecidableEq

/-- The decoder state right after `__init__`: both tables empty. -/
def hmmEmpty : HSt := ⟨[], []⟩

/-- The time-0 row `[log(mu[j]) + log(b(j, o_0)) for j in range(n)]`, evaluated with
`math.log`: the first nonpositive probability raises. -/
def delta0_row (m : HMMModel) : List ℕ → Except Unit (List LogV)
  | [] => .ok []
  | j :: rest =>
    match mlog qlog (m.mu j) with
    | .error e => .error e
    | .ok x =>
      match mlog qlog (m.b j 0) with
      | .error e => .error e
      | .ok y =>
        match delta0_row m rest with
        | .error e => .error e
        | .ok r => .ok (((x + y : ℤ) : LogV) :: r)

def delta0 (m : HMMModel) : Except Unit (List LogV) :=
  delta0_row qlog m (List.range m.n)

/-- Read access `self.deltas[t-1][i]` used by the time-`t ≥ 1` recursion. -/
def dp_of (ds : List (List LogV)) (t : ℕ) : ℕ → LogV :=
  fun i => (ds.getD (t - 1) []).getD i ⊥

/-- One candidate of `Viterbi._get_dtj`: `log(trans_mat[i][j]) + deltas[t-1][i] + log(bsjot)`
inside `try/except ValueError`, so a nonpositive transition or emission probability gives
`-inf` instead of an error. -/
def dtj_cand (m : HMMModel) (dp : ℕ → LogV) (t j i : ℕ) : LogV :=
  if m.A i j ≤ 0 ∨ m.b j t ≤ 0 then ⊥
  else ((qlog (m.A i j) : ℤ) : LogV) + dp i + ((qlog (m.b j t) : ℤ) : LogV)

/-- Embeds `Viterbi._get_dtj`. -/
def get_dtj (m : HMMModel) (dp : ℕ → LogV) (t j : ℕ) : LogV :=
  maxLoop (fun i => dtj_cand qlog m dp t j i) m.n

/-- One candidate of `Viterbi._get_phi_tj`: `log(trans_mat[i][j]) + deltas[t-1][i]` —
note the emission term is absent in the source. -/
def phi_cand (m : HMMModel) (dp : ℕ → LogV) (j i : ℕ) : LogV :=
  if m.A i j ≤ 0 then ⊥
  else ((qlog (m.A i j) : ℤ) : LogV) + dp i

/-- Embeds `Viterbi._get_phi_tj`: returns the first index attaining the maximum candidate, or
`None` (the initial `max_S`) when no candidate beats `-inf`. -/
def get_phi_tj (m : HMMModel) (dp : ℕ → LogV) (j : ℕ) : Option ℕ :=
  (argmaxLoop (fun i => phi_cand qlog m dp j i) m.n).2

/-- The row appended to `self.deltas` at time `t ≥ 1`. -/
def dtj_row (m : HMMModel) (ds : List (List LogV)) (t : ℕ) : List LogV :=
  (List.range m.n).map (fun j => get_dtj qlog m (dp_of ds t) t j)

/-- The row appended to `self.phis` at time `t ≥ 1`. -/
def phi_row (m : HMMModel) (ds : List (List LogV)) (t : ℕ) : List (Option ℕ) :=
  (List.range m.n).map (fun j => get_phi_tj qlog m (dp_of ds t) j)

/-- One iteration of the `for t in range(self.n_obs)` loop of `_get_deltas_and_phis`. -/
def hmm_step (m : HMMModel) (st : HSt) (t : ℕ) : Except Unit HSt :=
  if t = 0 then
    match delta0 qlog m with
    | .error e => .error e
    | .ok r0 => .ok ⟨st.deltas ++ [r0], st.phis ++ [List.replicate m.n (some 0)]⟩
  else
    .ok ⟨st.deltas ++ [dtj_row qlog m st.deltas t], st.phis ++ [phi_row qlog m st.deltas t]⟩

/-- The loop of `_get_deltas_and_phis` run for time steps `0, …, k-1`, appending to
whatever tables the state already holds. -/
def gdp (m : HMMModel) (st : HSt) : ℕ → Except Unit HSt
  | 0 => .ok st
  | k + 1 =>
    match gdp m st k with
    | .error e => .error e
    | .ok st' => hmm_step qlog m st' k

/-- Embeds `Viterbi._get_deltas_and_phis`. -/
def get_deltas_and_phis (m : HMMModel) (st : HSt) : Except Unit HSt :=
  gdp qlog m st m.T

/-- Embeds `self.deltas[-1].index(max(self.deltas[-1]))` for a nonempty row: the first index of
the maximal element (0 when every entry is `-inf`). -/
def idx_of_max (l : List LogV) : ℕ :=
  ((argmaxLoop (fun i => l.getD i ⊥) l.length).2).getD 0

/-- The backtracking loop of `run_viterbi`.  `acc` is `states_star` kept newest-first
(so that on exhaustion it already equals `list(reversed(states_star))`).  Reading a row
at a `None` cursor is the Python `TypeError` from `phis_row[None]`. -/
def backtrack : List (List (Option ℕ)) → List (Option ℕ) → Except Unit (List (Option ℕ))
  | [], acc => .ok acc
  | row :: rest, acc =>
    match acc.head? with
    | some (some c) => backtrack rest (row.getD c none :: acc)
    | _ => .error ()

/-- Embeds `Viterbi.run_viterbi`.  Besides the returned path, the (mutated) decoder state is
returned, since the tables persist on the object across calls. -/
def run_viterbi (m : HMMModel) (st : HSt) : Except Unit (HSt × List (Option ℕ)) :=
  match get_deltas_and_phis qlog m st with
  | .error e => .error e
  | .ok st' =>
    match st'.deltas.getLast? with
    | none => .error ()
    | some lr =>
      if lr.isEmpty then .error ()
      else
        match backtrack (st'.phis.drop 1).reverse [some (idx_of_max lr)] with
        | .error e => .error e
        | .ok path => .ok (st', path)

end Viterbi

end HMM

section SemiHMM

variable (qlog : ℚ → ℤ)

/-- Embeds `numpy.log`: total, with `log 0 = -inf`.  Probabilities are assumed nonnegative
(numpy would produce NaN on a negative argument; no claim involves one). -/
def nlog (q : ℚ) : LogV :=
  if q = 0 then ⊥ else ((qlog q : ℤ) : LogV)

/-- The data a `SemiViterbi` object is constructed from.  `bseg j t d` stands for
`b_Sj_Ot_function(j, obs_list[(t+1-d):(t+1)])`: the segment of observations ending at
time `t` with duration `d` is opaque to the engine, and on the index ranges the decoder
uses it is determined by `(t, d)`. -/
structure SemiModel where
  n : ℕ
  dmax : ℕ
  T : ℕ
  mus : ℕ → ℚ
  pd : ℕ → ℚ
  A : ℕ → ℕ → ℚ
  bseg : ℕ → ℕ → ℕ → ℚ

namespace SemiViterbi

/-- Embeds `SemiViterbi.get_init_delta_array`: finite (well, `numpy.log`-valued) only on the
row with hypothesised duration `d = init_d`; every other cell is `-inf`.  A cell is
indexed by duration index `d_` (duration `d = d_ + 1`) and state `j`. -/
def get_init_delta_array (m : SemiModel) (t init_d : ℕ) : ℕ → ℕ → LogV :=
  fun d_ j =>
    if d_ + 1 = init_d then
      nlog qlog (m.mus j) + nlog qlog (m.pd (d_ + 1)) + nlog qlog (m.bseg j t (d_ + 1))
    else ⊥

/-- One candidate of `SemiViterbi._get_dtj` / `_get_phi_tj` for predecessor state `i`
and predecessor duration index `d_`: explicitly `-inf` when the transition, emission or
duration probability is zero or there is not enough history (`t < d`). -/
def semi_cand (m : SemiModel) (ds : List (ℕ → ℕ → LogV)) (t j d i d_ : ℕ) : LogV :=
  if m.A i j = 0 ∨ t < d ∨ m.bseg j t d = 0 ∨ m.pd d = 0 then ⊥
  else
    ((qlog (m.A i j) : ℤ) : LogV) + ((qlog (m.pd d) : ℤ) : LogV) +
      (ds.getD (t - d) (fun _ _ => ⊥)) d_ i + ((qlog (m.bseg j t d) : ℤ) : LogV)

/-- Embeds `SemiViterbi._get_dtj`: maximum of the candidates over `i ≠ j` and all predecessor
duration indices, starting from `-inf`. -/
def get_dtj (m : SemiModel) (ds : List (ℕ → ℕ → LogV)) (t j d : ℕ) : LogV :=
  (List.range m.n).foldl
    (fun mx i =>
      if i ≠ j then
        (List.range m.dmax).foldl
          (fun mx2 d_ =>
            if mx2 < semi_cand qlog m ds t j d i d_ then semi_cand qlog m ds t j d i d_
            else mx2)
          mx
      else mx)
    ⊥

/-- Embeds `SemiViterbi._get_phi_tj`: same loop, tracking the `(state, duration)` pair
`(i, d_+1)` of the first maximal candidate, or the `(NaN, NaN)` sentinel (modelled as
`none`) when no candidate beats `-inf`. -/
def get_phi_tj (m : SemiModel) (ds : List (ℕ → ℕ → LogV)) (t j d : ℕ) :
    Option (ℕ × ℕ) :=
  ((List.range m.n).foldl
    (fun acc i =>
      if i ≠ j then
        (List.range m.dmax).foldl
          (fun acc2 d_ =>
            if acc2.1 < semi_cand qlog m ds t j d i d_ then
              (semi_cand qlog m ds t j d i d_, some (i, d_ + 1))
            else acc2)
          acc
      else acc)
    ((⊥ : LogV), (none : Option (ℕ × ℕ)))).2

/-- Embeds `SemiViterbi.get_delta_array`. -/
def get_delta_array (m : SemiModel) (ds : List (ℕ → ℕ → LogV)) (t : ℕ) :
    ℕ → ℕ → LogV :=
  fun d_ j => get_dtj qlog m ds t j (d_ + 1)

/-- Embeds `SemiViterbi.get_delta`: for early time steps the init-at-zero array and the
recursive array are combined with `sum_delta_arrays` (only the returned array is kept;
the two argument arrays are temporaries). -/
def get_delta (m : SemiModel) (ds : List (ℕ → ℕ → LogV)) (t : ℕ) : ℕ → ℕ → LogV :=
  if t < m.dmax then
    (sum_delta_arrays (get_init_delta_array qlog m t (t + 1)) (get_delta_array qlog m ds t)).2.2
  else get_delta_array qlog m ds t

/-- Embeds `SemiViterbi.set_deltas_and_phis` run for time steps `0, …, k-1`: the tables are
reassigned fresh (`self.deltas = []`) at the start of every decode, so the builder takes
no prior state. -/
def semi_tabs (m : SemiModel) :
    ℕ → List (ℕ → ℕ → LogV) × List (ℕ → ℕ → Option (ℕ × ℕ))
  | 0 => ([], [])
  | k + 1 =>
    let p := semi_tabs m k
    if k = 0 then
      (p.1 ++ [get_init_delta_array qlog m 0 1], p.2 ++ [fun _ _ => none])
    else
      (p.1 ++ [get_delta qlog m p.1 k], p.2 ++ [fun d_ j => get_phi_tj qlog m p.1 k j (d_ + 1)])

/-- The backtracking `while t > 0` loop of `SemiViterbi.set_optimal_sequence`, with the
cursor as an integer (`t -= d` may go negative) and explicit fuel (`none` = the loop is
still running, which never happens for the tables the decoder builds).  Reading the
`(NaN, NaN)` sentinel with the cursor away from 0 is the `raise Exception`. -/
def btLoop (ph : ℕ → ℕ → ℕ → Option (ℕ × ℕ)) :
    ℕ → ℤ → ℕ → ℕ → Option (Except Unit (List (ℕ × ℕ)))
  | 0, t, _, _ => if t ≤ 0 then some (.ok []) else none
  | fuel + 1, t, j, d =>
    if t ≤ 0 then some (.ok [])
    else
      match ph (t - 1).toNat (d - 1) j with
      | none => if t - (d : ℤ) = 0 then some (.ok []) else some (.error ())
      | some (j', d') =>
        (btLoop ph fuel (t - (d : ℤ)) j' d').map (fun e => e.map (fun l => (j', d') :: l))

/-- A sentinel backpointer is reachable from configuration `(t, j, d)` with the cursor
not returning exactly to 0: the trace-level description of the backtracking failure. -/
inductive BadSentinel (ph : ℕ → ℕ → ℕ → Option (ℕ × ℕ)) : ℤ → ℕ → ℕ → Prop
  | here {t : ℤ} {j d : ℕ} (h0 : 0 < t) (hs : ph (t - 1).toNat (d - 1) j = none)
      (hne : t - (d : ℤ) ≠ 0) : BadSentinel ph t j d
  | there {t : ℤ} {j d j' d' : ℕ} (h0 : 0 < t)
      (hs : ph (t - 1).toNat (d - 1) j = some (j', d'))
      (hrest : BadSentinel ph (t - (d : ℤ)) j' d') : BadSentinel ph t j d

/-- Embeds `SemiViterbi.run_viterbi` = `set_deltas_and_phis` followed by
`set_optimal_sequence`; the result is the `states_and_durations` list (in forward
order), or an error for the raised exception.  The start cell is `numpy`'s
`unravel_index(a.argmax(), a.shape)` on the last delta array: the first flat index (row
major over duration × state) attaining the maximum, 0 if every cell is `-inf`. -/
def run_viterbi (m : SemiModel) : Option (Except Unit (List (ℕ × ℕ))) :=
  let tabs := semi_tabs qlog m m.T
  match tabs.1.getLast? with
  | none => some (.error ())
  | some a =>
    let k := ((argmaxLoop (fun u => a (u / m.n) (u % m.n)) (m.dmax * m.n)).2).getD 0
    let d := k / m.n + 1
    let j := k % m.n
    (btLoop (fun t d_ j2 => (tabs.2.getD t (fun _ _ => none)) d_ j2) (m.T + 1) (m.T : ℤ) j d).map
      (fun e => e.map (fun l => ((j, d) :: l).reverse))

end SemiViterbi

end SemiHMM

section HMMDerived

variable (qlog : ℚ → ℤ)

namespace Viterbi

/-- The time-0 delta row in the case where no `math.log` call raises. -/
def dRow0 (m : HMMModel) : List LogV :=
  (List.range m.n).map (fun j => ((qlog (m.mu j) + qlog (m.b j 0) : ℤ) : LogV))

/-- The delta rows of a fresh error-free decode, as a pure recursion over time (row `t`
only reads row `t-1`). -/
def row_d (m : HMMModel) : ℕ → List LogV
  | 0 => dRow0 qlog m
  | t + 1 =>
    (List.range m.n).map
      (fun j => get_dtj qlog m (fun i => (row_d m t).getD i ⊥) (t + 1) j)

/-- The phi rows of a fresh error-free decode. -/
def phi_row_d (m : HMMModel) : ℕ → List (Option ℕ)
  | 0 => List.replicate m.n (some 0)
  | t + 1 =>
    (List.range m.n).map
      (fun j => get_phi_tj qlog m (fun i => (row_d qlog m t).getD i ⊥) j)

/-- The phi rows `[phis[t], phis[t-1], …, phis[1]]` in the order the backtracking pass
visits them. -/
def phiRowsRev (m : HMMModel) : ℕ → List (List (Option ℕ))
  | 0 => []
  | t + 1 => phi_row_d qlog m (t + 1) :: phiRowsRev m t

/-- Modelled from the spec (for comparison with `phi_cand`): the candidate the spec
says `phi[t][j]` maximises, `log(A[i][j]) + delta[t-1][i] + log(b(j, o_t))`, with a zero
transition or emission probability contributing `-infinity`. -/
def spec_phi_cand (m : HMMModel) (dp : ℕ → LogV) (t j i : ℕ) : LogV :=
  if m.A i j = 0 ∨ m.b j t = 0 then ⊥
  else ((qlog (m.A i j) : ℤ) : LogV) + dp i + ((qlog (m.b j t) : ℤ) : LogV)

end Viterbi

end HMMDerived

section ConcreteInstances

/-- A concrete stand-in for the uninterpreted logarithm, used to evaluate the
definitions on concrete inputs. -/
def qlogC : ℚ → ℤ := fun _ => 0

/-- The rational one half, given by its reduced fraction so that the comparisons the
decoders perform on it compute. -/
def half : ℚ := ⟨1, 2, by decide, by decide⟩

/-- Two states, one observation, valid distributions: `mu = [1, 0]` (a zero entry),
identity transition matrix (row-stochastic), emission probability 1. -/
def mC1 : HMMModel :=
  ⟨2, 1, fun j => if j = 0 then 1 else 0, fun i j => if i = j then 1 else 0, fun _ _ => 1⟩

/-- One state, one observation, all probabilities 1. -/
def mPos1 : HMMModel := ⟨1, 1, fun _ => 1, fun _ _ => 1, fun _ _ => 1⟩

/-- One state, transition probability 0 and emission probability 0. -/
def mC2 : HMMModel := ⟨1, 2, fun _ => 1, fun _ _ => 0, fun _ _ => 0⟩

/-- One state, all probabilities 1 (for the amended phi characterisation). -/
def mC2w : HMMModel := ⟨1, 2, fun _ => 1, fun _ _ => 1, fun _ _ => 1⟩

/-- A finite previous-delta row: every state has log-score 0. -/
def dpC : ℕ → LogV := fun _ => ((0 : ℤ) : LogV)

/-- Two states, two observations, row-stochastic matrix whose first column is zero,
uniform `mu`, emissions 1 at time 0 and 0 at time 1. -/
def mC7b : HMMModel :=
  ⟨2, 2, fun _ => half, fun _ j => if j = 0 then 0 else 1, fun _ t => if t = 0 then 1 else 0⟩

/-- The decoder state after one decode of `mPos1` (with `qlogC`). -/
def st1C : Viterbi.HSt := ⟨[[((0 : ℤ) : LogV)]], [[some 0]]⟩

/-- The decoder state after two decodes of `mPos1` (with `qlogC`). -/
def st2C : Viterbi.HSt :=
  ⟨[[((0 : ℤ) : LogV)], [((0 : ℤ) : LogV)]], [[some 0], [some 0]]⟩

/-- An all-`-inf` log-probability array. -/
def botArr : ℕ → ℕ → LogV := fun _ _ => ⊥

/-- An array whose cells all hold the finite log-value 0 (probability 1). -/
def zeroArr : ℕ → ℕ → LogV := fun _ _ => ((0 : ℤ) : LogV)

/-- An array whose cells all hold the finite log-value 1. -/
def oneArr : ℕ → ℕ → LogV := fun _ _ => ((1 : ℤ) : LogV)

/-- Semi-Markov model: two states, `d_max = 1`, one observation, valid distributions. -/
def smC3 : SemiModel :=
  ⟨2, 1, 1, fun _ => half, fun _ => 1, fun _ _ => half, fun _ _ _ => 1⟩

/-- Semi-Markov model with a single state and `T = 2 > d_max = 1`. -/
def smC10 : SemiModel := ⟨1, 1, 2, fun _ => 1, fun _ => 1, fun _ _ => 1, fun _ _ _ => 1⟩

/-- Semi-Markov model with `d_max = 2` and `T = 2` (so time step `t = 1` merges). -/
def smC5 : SemiModel := ⟨1, 2, 2, fun _ => 1, fun _ => 1, fun _ _ => 1, fun _ _ _ => 1⟩

/-- A backpointer table that is everywhere the sentinel. -/
def phC6 : ℕ → ℕ → ℕ → Option (ℕ × ℕ) := fun _ _ _ => none

end ConcreteInstances

section FoldLemmas

theorem maxLoop_succ (f : ℕ → LogV) (n : ℕ) :
    maxLoop f (n + 1) = if maxLoop f n < f n then f n else maxLoop f n := by
  simp [maxLoop, List.range_succ]

theorem argmaxLoop_succ (f : ℕ → LogV) (n : ℕ) :
    argmaxLoop f (n + 1) =
      if (argmaxLoop f n).1 < f n then (f n, some n) else argmaxLoop f n := by
  simp [argmaxLoop, List.range_succ]

theorem le_maxLoop (f : ℕ → LogV) (n : ℕ) : ∀ i < n, f i ≤ maxLoop f n := by
  induction n with
  | zero => intro i h; omega
  | succ n ih =>
    intro i hi
    rw [maxLoop_succ]
    by_cases hlt : maxLoop f n < f n
    · rw [if_pos hlt]
      rcases Nat.lt_succ_iff_lt_or_eq.mp hi with h | h
      · exact le_trans (ih i h) (le_of_lt hlt)
      · subst h; exact le_refl _
    · rw [if_neg hlt]
      rcases Nat.lt_succ_iff_lt_or_eq.mp hi with h | h
      · exact ih i h
      · subst h; exact le_of_not_lt hlt

theorem maxLoop_eq_bot (f : ℕ → LogV) (n : ℕ) (h : ∀ i < n, f i = ⊥) :
    maxLoop f n = ⊥ := by
  induction n with
  | zero => rfl
  | succ n ih =>
    rw [maxLoop_succ, ih (fun i hi => h i (Nat.lt_succ_of_lt hi)), h n (Nat.lt_succ_self n)]
    simp

theorem maxLoop_ne_bot_iff (f : ℕ → LogV) (n : ℕ) :
    maxLoop f n ≠ ⊥ ↔ ∃ i < n, f i ≠ ⊥ := by
  constructor
  · intro h
    by_contra hc
    push_neg at hc
    exact h (maxLoop_eq_bot f n hc)
  · rintro ⟨i, hi, hne⟩ hbot
    have := le_maxLoop f n i hi
    rw [hbot, le_bot_iff] at this
    exact hne this

/-- Full specification of the first-maximizer argmax loop: the tracked value is the
running maximum; `none` is returned iff every candidate is `-inf`; a returned index is a
maximizer and every smaller index is strictly worse (first-encountered tie-breaking). -/
theorem argmaxLoop_spec (f : ℕ → LogV) (n : ℕ) :
    (∀ i < n, f i ≤ (argmaxLoop f n).1) ∧
    ((argmaxLoop f n).2 = none → (argmaxLoop f n).1 = ⊥ ∧ ∀ i < n, f i = ⊥) ∧
    (∀ i0, (argmaxLoop f n).2 = some i0 →
      i0 < n ∧ f i0 = (argmaxLoop f n).1 ∧ f i0 ≠ ⊥ ∧
      (∀ i < n, f i ≤ f i0) ∧ (∀ i < i0, f i < f i0)) := by
  induction n with
  | zero =>
    refine ⟨fun i h => by omega, fun _ => ⟨rfl, fun i h => by omega⟩, fun i0 h => by
      simp [argmaxLoop] at h⟩
  | succ n ih =>
    obtain ⟨ihle, ihnone, ihsome⟩ := ih
    rw [argmaxLoop_succ]
    by_cases hlt : (argmaxLoop f n).1 < f n
    case pos =>
      rw [if_pos hlt]
      refine ⟨?_, ?_, ?_⟩
      · intro i hi
        rcases Nat.lt_succ_iff_lt_or_eq.mp hi with h | h
        · exact le_trans (ihle i h) (le_of_lt hlt)
        · subst h; exact le_refl _
      · intro h; simp at h
      · intro i0 h
        simp only [Option.some.injEq] at h
        subst h
        refine ⟨Nat.lt_succ_self n, rfl, ?_, ?_, ?_⟩
        · intro hbot
          rw [hbot] at hlt
          exact not_lt_bot hlt
        · intro i hi
          rcases Nat.lt_succ_iff_lt_or_eq.mp hi with h | h
          · exact le_trans (ihle i h) (le_of_lt hlt)
          · subst h; exact le_refl _
        · intro i hi
          exact lt_of_le_of_lt (ihle i hi) hlt
    case neg =>
      rw [if_neg hlt]
      have hfn : f n ≤ (argmaxLoop f n).1 := le_of_not_lt hlt
      refine ⟨?_, ?_, ?_⟩
      · intro i hi
        rcases Nat.lt_succ_iff_lt_or_eq.mp hi with h | h
        · exact ihle i h
        · subst h; exact hfn
      · intro h
        obtain ⟨h1, h2⟩ := ihnone h
        refine ⟨h1, fun i hi => ?_⟩
        rcases Nat.lt_succ_iff_lt_or_eq.mp hi with hlt2 | heq
        · exact h2 i hlt2
        · subst heq
          rw [h1, le_bot_iff] at hfn
          exact hfn
      · intro i0 h
        obtain ⟨h1, h2, h3, h4, h5⟩ := ihsome i0 h
        refine ⟨Nat.lt_succ_of_lt h1, h2, h3, ?_, h5⟩
        intro i hi
        rcases Nat.lt_succ_iff_lt_or_eq.mp hi with hlt2 | heq
        · exact h4 i hlt2
        · subst heq
          rw [h2]; exact hfn

/-- A fold whose step function never changes the accumulator is the identity. -/
theorem foldl_id_of {α β : Type} (g : β → α → β) (l : List α) (a : β)
    (h : ∀ b, ∀ x ∈ l, g b x = b) : l.foldl g a = a := by
  induction l generalizing a with
  | nil => rfl
  | cons x xs ih =>
    rw [List.foldl_cons, h a x (List.mem_cons_self x xs)]
    exact ih a (fun b y hy => h b y (List.mem_cons_of_mem x hy))

end FoldLemmas

section ListLemmas

theorem getD_map_range {α : Type} (f : ℕ → α) {n i : ℕ} (h : i < n) (d : α) :
    ((List.range n).map f).getD i d = f i := by
  rw [List.getD_eq_getElem?_getD]
  rw [List.getElem?_map]
  rw [List.getElem?_range h]
  rfl

theorem getD_append_left {α : Type} {l l' : List α} {i : ℕ} (h : i < l.length) (d : α) :
    (l ++ l').getD i d = l.getD i d := by
  rw [List.getD_eq_getElem?_getD, List.getD_eq_getElem?_getD, List.getElem?_append_left h]

theorem drop_one_append {α : Type} {l l' : List α} (h : l ≠ []) :
    (l ++ l').drop 1 = l.drop 1 ++ l' := by
  cases l with
  | nil => exact absurd rfl h
  | cons a t => rfl

end ListLemmas

section SemiLemmas

theorem semi_cand_bot_of_lt (qlog : ℚ → ℤ) (m : SemiModel) (ds : List (ℕ → ℕ → LogV))
    (t j d i d_ : ℕ) (h : t < d) : SemiViterbi.semi_cand qlog m ds t j d i d_ = ⊥ := by
  unfold SemiViterbi.semi_cand
  rw [if_pos (Or.inr (Or.inl h))]

theorem get_dtj_bot_of_lt (qlog : ℚ → ℤ) (m : SemiModel) (ds : List (ℕ → ℕ → LogV))
    (t j d : ℕ) (h : t < d) : SemiViterbi.get_dtj qlog m ds t j d = ⊥ := by
  unfold SemiViterbi.get_dtj
  apply foldl_id_of
  intro b i _
  by_cases hij : i ≠ j
  · rw [if_pos hij]
    apply foldl_id_of
    intro b2 d_ _
    rw [semi_cand_bot_of_lt qlog m ds t j d i d_ h, if_neg (not_lt_bot)]
  · rw [if_neg hij]

theorem get_phi_tj_none_of_lt (qlog : ℚ → ℤ) (m : SemiModel) (ds : List (ℕ → ℕ → LogV))
    (t j d : ℕ) (h : t < d) : SemiViterbi.get_phi_tj qlog m ds t j d = none := by
  unfold SemiViterbi.get_phi_tj
  rw [foldl_id_of _ _ _ ?_]
  intro b i _
  by_cases hij : i ≠ j
  · rw [if_pos hij]
    apply foldl_id_of
    intro b2 d_ _
    rw [semi_cand_bot_of_lt qlog m ds t j d i d_ h, if_neg (not_lt_bot)]
  · rw [if_neg hij]

theorem get_dtj_bot_of_one_state (qlog : ℚ → ℤ) (m : SemiModel)
    (ds : List (ℕ → ℕ → LogV)) (t d : ℕ) (h : m.n = 1) :
    SemiViterbi.get_dtj qlog m ds t 0 d = ⊥ := by
  unfold SemiViterbi.get_dtj
  rw [h]
  simp [show List.range 1 = [0] from rfl]

theorem get_phi_tj_none_of_one_state (qlog : ℚ → ℤ) (m : SemiModel)
    (ds : List (ℕ → ℕ → LogV)) (t d : ℕ) (h : m.n = 1) :
    SemiViterbi.get_phi_tj qlog m ds t 0 d = none := by
  unfold SemiViterbi.get_phi_tj
  rw [h]
  simp [show List.range 1 = [0] from rfl]

end SemiLemmas

section ClaimC4C9

/-- Claim C4 (counterexample): the merge does not return the finite operand when that
operand is exactly 0 (the log-score of probability 1): with `a` holding the finite value
0 and `b` holding `-infinity`, the merged cell is `-infinity`, not `a`'s value. -/
theorem c4_counterexample :
    zeroArr 0 0 ≠ ⊥ ∧ botArr 0 0 = ⊥ ∧ (sum_delta_arrays zeroArr botArr).2.2 0 0 = ⊥ :=
  ⟨by decide, rfl, by decide⟩

/-- Claim C4 (amended): on cells where at most one operand is finite and no finite
operand is exactly 0, `sum_delta_arrays` returns the finite operand, and `-infinity`
when both operands are `-infinity`. -/
theorem c4_amended (a b : ℕ → ℕ → LogV) (d j : ℕ)
    (hdisj : a d j = ⊥ ∨ b d j = ⊥)
    (ha : a d j ≠ ((0 : ℤ) : LogV)) (hb : b d j ≠ ((0 : ℤ) : LogV)) :
    (sum_delta_arrays a b).2.2 d j = if a d j = ⊥ then b d j else a d j := by
  unfold sum_delta_arrays
  simp only
  by_cases h1 : a d j = ⊥
  · rw [if_pos h1, if_pos h1]
    by_cases h2 : b d j = ⊥
    · rw [if_pos h2]
      rw [show ((0 : ℤ) : LogV) + ((0 : ℤ) : LogV) = ((0 : ℤ) : LogV) by decide]
      rw [if_pos rfl, h2]
    · rw [if_neg h2]
      rw [WithBot.coe_zero, zero_add]
      have hb0 : b d j ≠ (0 : LogV) := by rw [← WithBot.coe_zero]; exact hb
      rw [if_neg hb0]
  · have h2 : b d j = ⊥ := hdisj.resolve_left h1
    rw [if_neg h1, if_neg h1, if_pos h2]
    rw [WithBot.coe_zero, add_zero]
    have ha0 : a d j ≠ (0 : LogV) := by rw [← WithBot.coe_zero]; exact ha
    rw [if_neg ha0]

/-- Claim C4 (witness): the amended statement evaluated at a concrete pair of arrays
whose only finite operand in the cell is the nonzero value 1. -/
theorem c4_witness :
    (sum_delta_arrays oneArr botArr).2.2 0 0 =
      if oneArr 0 0 = ⊥ then botArr 0 0 else oneArr 0 0 :=
  c4_amended oneArr botArr 0 0 (Or.inr rfl) (by decide) (by decide)

/-- Claim C9 (counterexample): `sum_delta_arrays` is not pure — after the call the
first argument array's `-infinity` cell has been overwritten with 0. -/
theorem c9_counterexample : (sum_delta_arrays botArr botArr).1 0 0 ≠ botArr 0 0 := by
  decide

/-- Claim C9 (amended): the call leaves the first input array unchanged precisely when
that array contains no `-infinity` entry; in general both inputs are mutated in place
(`-infinity` entries become 0). -/
theorem c9_amended (a b : ℕ → ℕ → LogV) :
    (sum_delta_arrays a b).1 = a ↔ ∀ d j, a d j ≠ ⊥ := by
  constructor
  · intro h d j hbot
    have hc := congrFun (congrFun h d) j
    unfold sum_delta_arrays at hc
    simp only at hc
    rw [if_pos hbot, hbot] at hc
    exact absurd hc (by decide)
  · intro h
    funext d j
    unfold sum_delta_arrays
    simp only
    rw [if_neg (h d j)]

/-- Claim C9 (witness): the amended statement evaluated on a concrete `-infinity`-free
array, which the call indeed leaves unchanged. -/
theorem c9_witness : (sum_delta_arrays oneArr oneArr).1 = oneArr :=
  (c9_amended oneArr oneArr).mpr (fun _ _ => WithBot.coe_ne_bot)

end ClaimC4C9

section ClaimC2

/-- Claim C2 (counterexample): at a model whose only transition probability into state
0 is zero (so every candidate of the claimed formula is `-infinity`), `phi[t][j]` is the
`None` sentinel (`max_S` is never assigned), not the first index `i = 0` the claim
names. -/
theorem c2_counterexample :
    mC2.n = 1 ∧ Viterbi.spec_phi_cand qlogC mC2 dpC 1 0 0 = ⊥ ∧
      Viterbi.get_phi_tj qlogC mC2 dpC 0 ≠ some 0 :=
  ⟨rfl, by decide, by decide⟩

/-- Claim C2 (amended): for `t ≥ 1`, `phi[t][j]` maximises the code's candidate
`log(A[i][j]) + delta[t-1][i]` (the emission term is omitted by the source, which does
not change the maximiser when `b(j, o_t) > 0`), ties broken by the first index in
increasing order; and when every candidate is `-infinity` the result is the `None`
sentinel, not index 0. -/
theorem c2_amended (qlog : ℚ → ℤ) (m : HMMModel) (dp : ℕ → LogV) (j : ℕ) :
    (Viterbi.get_phi_tj qlog m dp j = none ↔ ∀ i < m.n, Viterbi.phi_cand qlog m dp j i = ⊥) ∧
    (∀ i0, Viterbi.get_phi_tj qlog m dp j = some i0 →
      i0 < m.n ∧ Viterbi.phi_cand qlog m dp j i0 ≠ ⊥ ∧
      (∀ i < m.n, Viterbi.phi_cand qlog m dp j i ≤ Viterbi.phi_cand qlog m dp j i0) ∧
      (∀ i < i0, Viterbi.phi_cand qlog m dp j i < Viterbi.phi_cand qlog m dp j i0)) := by
  obtain ⟨h1, h2, h3⟩ := argmaxLoop_spec (fun i => Viterbi.phi_cand qlog m dp j i) m.n
  unfold Viterbi.get_phi_tj
  constructor
  · constructor
    · intro h
      exact (h2 h).2
    · intro hall
      cases hmatch : (argmaxLoop (fun i => Viterbi.phi_cand qlog m dp j i) m.n).2 with
      | none => rfl
      | some i0 =>
        obtain ⟨hi0, _, hne, _, _⟩ := h3 i0 hmatch
        exact absurd (hall i0 hi0) hne
  · intro i0 hmatch
    obtain ⟨hi0, _, hne, hle, hlt⟩ := h3 i0 hmatch
    exact ⟨hi0, hne, hle, hlt⟩

/-- Claim C2 (witness): the amended characterisation applied at a concrete model with a
positive transition probability: the returned index 0 is in range and its candidate is
finite. -/
theorem c2_witness : 0 < mC2w.n ∧ Viterbi.phi_cand qlogC mC2w dpC 0 0 ≠ ⊥ := by
  have h := (c2_amended qlogC mC2w dpC 0).2 0 (by decide)
  exact ⟨h.1, h.2.1⟩

end ClaimC2

section ClaimC5

/-- Claim C5: at every early time step `1 ≤ t < d_max` the delta row is the merge of
the init array and the recursive array, the init array can be finite only on cells with
hypothesised duration `d = t+1`, the recursive array only on cells with `d ≤ t`, and so
no cell has two finite operands. -/
theorem c5_merge_operands_disjoint (qlog : ℚ → ℤ) (m : SemiModel) (t d_ j : ℕ)
    (ht1 : 1 ≤ t) (ht2 : t < m.dmax) :
    SemiViterbi.get_delta qlog m (SemiViterbi.semi_tabs qlog m t).1 t =
      (sum_delta_arrays (SemiViterbi.get_init_delta_array qlog m t (t + 1))
        (SemiViterbi.get_delta_array qlog m (SemiViterbi.semi_tabs qlog m t).1 t)).2.2 ∧
    (SemiViterbi.get_init_delta_array qlog m t (t + 1) d_ j ≠ ⊥ → d_ + 1 = t + 1) ∧
    (SemiViterbi.get_delta_array qlog m (SemiViterbi.semi_tabs qlog m t).1 t d_ j ≠ ⊥ →
      d_ + 1 ≤ t) ∧
    ¬(SemiViterbi.get_init_delta_array qlog m t (t + 1) d_ j ≠ ⊥ ∧
      SemiViterbi.get_delta_array qlog m (SemiViterbi.semi_tabs qlog m t).1 t d_ j ≠ ⊥) := by
  have hinit : SemiViterbi.get_init_delta_array qlog m t (t + 1) d_ j ≠ ⊥ → d_ + 1 = t + 1 := by
    intro h
    by_contra hne
    apply h
    unfold SemiViterbi.get_init_delta_array
    rw [if_neg hne]
  have hrec :
      SemiViterbi.get_delta_array qlog m (SemiViterbi.semi_tabs qlog m t).1 t d_ j ≠ ⊥ →
        d_ + 1 ≤ t := by
    intro h
    by_contra hgt
    exact h (get_dtj_bot_of_lt qlog m _ t j (d_ + 1) (by omega))
  refine ⟨?_, hinit, hrec, ?_⟩
  · unfold SemiViterbi.get_delta
    rw [if_pos ht2]
  · rintro ⟨h1, h2⟩
    have e1 := hinit h1
    have e2 := hrec h2
    omega

/-- Claim C5 (witness): the disjointness statement evaluated at a concrete model with
`d_max = 2` at the merged time step `t = 1`. -/
theorem c5_witness :
    ¬(SemiViterbi.get_init_delta_array qlogC smC5 1 2 1 0 ≠ ⊥ ∧
      SemiViterbi.get_delta_array qlogC smC5 (SemiViterbi.semi_tabs qlogC smC5 1).1 1 1 0 ≠ ⊥) :=
  (c5_merge_operands_disjoint qlogC smC5 1 1 0 (by decide) (by decide)).2.2.2

end ClaimC5

section MoreListLemmas

theorem getD_append_length {α : Type} (l : List α) (x d : α) :
    (l ++ [x]).getD l.length d = x := by
  rw [List.getD_eq_getElem?_getD, List.getElem?_append_right (le_refl l.length)]
  simp

theorem getD_of_length_le {α : Type} {l : List α} {i : ℕ} (h : l.length ≤ i) (d : α) :
    l.getD i d = d := by
  rw [List.getD_eq_getElem?_getD, List.getElem?_eq_none h]
  rfl

theorem getD_append_at {α : Type} (l : List α) (x d : α) {i : ℕ} (h : i = l.length) :
    (l ++ [x]).getD i d = x := by
  subst h
  exact getD_append_length l x d

end MoreListLemmas

section SemiTabLemmas

theorem semi_tabs_succ (qlog : ℚ → ℤ) (m : SemiModel) (k : ℕ) :
    SemiViterbi.semi_tabs qlog m (k + 1) =
      if k = 0 then
        ((SemiViterbi.semi_tabs qlog m k).1 ++ [SemiViterbi.get_init_delta_array qlog m 0 1],
          (SemiViterbi.semi_tabs qlog m k).2 ++ [fun _ _ => none])
      else
        ((SemiViterbi.semi_tabs qlog m k).1 ++
            [SemiViterbi.get_delta qlog m (SemiViterbi.semi_tabs qlog m k).1 k],
          (SemiViterbi.semi_tabs qlog m k).2 ++
            [fun d_ j =>
              SemiViterbi.get_phi_tj qlog m (SemiViterbi.semi_tabs qlog m k).1 k j (d_ + 1)]) := by
  rfl

theorem semi_tabs_length (qlog : ℚ → ℤ) (m : SemiModel) (k : ℕ) :
    (SemiViterbi.semi_tabs qlog m k).1.length = k ∧
      (SemiViterbi.semi_tabs qlog m k).2.length = k := by
  induction k with
  | zero => exact ⟨rfl, rfl⟩
  | succ k ih =>
    rw [semi_tabs_succ]
    by_cases hk : k = 0
    · rw [if_pos hk]
      simp [ih.1, ih.2]
    · rw [if_neg hk]
      simp [ih.1, ih.2]

/-- The delta row the tables hold at time `t`: the init array at `t = 0`, otherwise
`get_delta` over the first `t` rows. -/
theorem semi_tabs_fst_getD (qlog : ℚ → ℤ) (m : SemiModel) {k t : ℕ} (h : t < k)
    (dflt : ℕ → ℕ → LogV) :
    (SemiViterbi.semi_tabs qlog m k).1.getD t dflt =
      if t = 0 then SemiViterbi.get_init_delta_array qlog m 0 1
      else SemiViterbi.get_delta qlog m (SemiViterbi.semi_tabs qlog m t).1 t := by
  induction k with
  | zero => omega
  | succ k ih =>
    rw [semi_tabs_succ]
    by_cases htk : t < k
    · have hk : k ≠ 0 := by omega
      rw [if_neg hk]
      simp only
      rw [getD_append_left (by rw [(semi_tabs_length qlog m k).1]; exact htk)]
      exact ih htk
    · have htk' : t = k := by omega
      subst htk'
      by_cases hk : t = 0
      · rw [if_pos hk]
        simp only
        subst hk
        rw [getD_append_at _ _ _ ((semi_tabs_length qlog m 0).1).symm, if_pos rfl]
      · rw [if_neg hk]
        simp only
        rw [getD_append_at _ _ _ ((semi_tabs_length qlog m t).1).symm, if_neg hk]

/-- The phi row the tables hold at time `t`: all sentinels at `t = 0`, otherwise the
`_get_phi_tj` cells over the first `t` rows of deltas. -/
theorem semi_tabs_snd_getD (qlog : ℚ → ℤ) (m : SemiModel) {k t : ℕ} (h : t < k)
    (dflt : ℕ → ℕ → Option (ℕ × ℕ)) :
    (SemiViterbi.semi_tabs qlog m k).2.getD t dflt =
      if t = 0 then (fun _ _ => none)
      else fun d_ j =>
        SemiViterbi.get_phi_tj qlog m (SemiViterbi.semi_tabs qlog m t).1 t j (d_ + 1) := by
  induction k with
  | zero => omega
  | succ k ih =>
    rw [semi_tabs_succ]
    by_cases htk : t < k
    · have hk : k ≠ 0 := by omega
      rw [if_neg hk]
      simp only
      rw [getD_append_left (by rw [(semi_tabs_length qlog m k).2]; exact htk)]
      exact ih htk
    · have htk' : t = k := by omega
      subst htk'
      by_cases hk : t = 0
      · rw [if_pos hk]
        simp only
        subst hk
        rw [getD_append_at _ _ _ ((semi_tabs_length qlog m 0).2).symm, if_pos rfl]
      · rw [if_neg hk]
        simp only
        rw [getD_append_at _ _ _ ((semi_tabs_length qlog m t).2).symm, if_neg hk]

/-- The structural invariant behind duration-sum correctness: any phi cell read with
hypothesised duration exceeding its time index holds the sentinel. -/
theorem semi_phifun_sentinel (qlog : ℚ → ℤ) (m : SemiModel) :
    ∀ t' d' j', t' < d' →
      ((SemiViterbi.semi_tabs qlog m m.T).2.getD t' (fun _ _ => none)) (d' - 1) j' = none := by
  intro t' d' j' hlt
  by_cases hT : t' < m.T
  · rw [semi_tabs_snd_getD qlog m hT]
    by_cases h0 : t' = 0
    · rw [if_pos h0]
    · rw [if_neg h0]
      show SemiViterbi.get_phi_tj qlog m (SemiViterbi.semi_tabs qlog m t').1 t' j'
        (d' - 1 + 1) = none
      rw [show d' - 1 + 1 = d' by omega]
      exact get_phi_tj_none_of_lt qlog m _ t' j' d' hlt
  · rw [getD_of_length_le (by rw [(semi_tabs_length qlog m m.T).2]; omega)]

end SemiTabLemmas

section ClaimC3

/-- The accounting of the backtracking loop: whenever it completes normally from a
positive cursor, the current duration plus the durations it appends equals the cursor —
provided every phi cell whose duration exceeds its time index is the sentinel. -/
theorem btLoop_sum (ph : ℕ → ℕ → ℕ → Option (ℕ × ℕ))
    (H : ∀ t' d' j', t' < d' → ph t' (d' - 1) j' = none) :
    ∀ (fuel : ℕ) (t : ℤ) (j d : ℕ) (l : List (ℕ × ℕ)),
      SemiViterbi.btLoop ph fuel t j d = some (.ok l) → 0 < t →
        (d : ℤ) + ((l.map Prod.snd).sum : ℕ) = t := by
  intro fuel
  induction fuel with
  | zero =>
    intro t j d l hrun ht
    rw [SemiViterbi.btLoop, if_neg (by omega)] at hrun
    exact absurd hrun (by simp)
  | succ fuel ih =>
    intro t j d l hrun ht
    rw [SemiViterbi.btLoop, if_neg (by omega)] at hrun
    cases hread : ph (t - 1).toNat (d - 1) j with
    | none =>
      simp only [hread] at hrun
      by_cases hz : t - (d : ℤ) = 0
      · rw [if_pos hz] at hrun
        have hl : l = [] := by
          cases hrun
          rfl
        subst hl
        simp only [List.map_nil, List.sum_nil]
        omega
      · rw [if_neg hz] at hrun
        exact absurd hrun (by simp)
    | some p =>
      obtain ⟨j', d'⟩ := p
      simp only [hread] at hrun
      cases hinner : SemiViterbi.btLoop ph fuel (t - (d : ℤ)) j' d' with
      | none =>
        rw [hinner] at hrun
        exact absurd hrun (by simp)
      | some e =>
        rw [hinner] at hrun
        cases e with
        | error u =>
          exact absurd hrun (by simp [Except.map])
        | ok l' =>
          simp only [Option.map_some, Except.map, Option.some.injEq] at hrun
          have hl : l = (j', d') :: l' := by
            cases hrun
            rfl
          subst hl
          by_cases h0 : 0 < t - (d : ℤ)
          · have := ih (t - (d : ℤ)) j' d' l' hinner h0
            simp only [List.map_cons, List.sum_cons]
            omega
          · have hlt : (t - 1).toNat < d := by omega
            have := H (t - 1).toNat d j hlt
            rw [this] at hread
            exact absurd hread (by simp)

/-- Claim C3: whenever the semi-Markov decode completes without raising, the durations
of the returned `(state, duration)` segments sum exactly to the number of
observations `T`. -/
theorem c3_durations_sum_T (qlog : ℚ → ℤ) (m : SemiModel) (segs : List (ℕ × ℕ))
    (h : SemiViterbi.run_viterbi qlog m = some (.ok segs)) :
    (segs.map Prod.snd).sum = m.T := by
  unfold SemiViterbi.run_viterbi at h
  cases hlast : (SemiViterbi.semi_tabs qlog m m.T).1.getLast? with
  | none =>
    simp only [hlast] at h
    exact absurd h (by simp)
  | some a =>
    simp only [hlast] at h
    have hT : 0 < m.T := by
      by_contra h0
      have hT0 : m.T = 0 := by omega
      rw [hT0] at hlast
      exact absurd hlast (by simp [SemiViterbi.semi_tabs])
    cases hloop : SemiViterbi.btLoop
        (fun t d_ j2 => ((SemiViterbi.semi_tabs qlog m m.T).2.getD t fun _ _ => none) d_ j2)
        (m.T + 1) (m.T : ℤ)
        (((argmaxLoop (fun u => a (u / m.n) (u % m.n)) (m.dmax * m.n)).2).getD 0 % m.n)
        (((argmaxLoop (fun u => a (u / m.n) (u % m.n)) (m.dmax * m.n)).2).getD 0 / m.n + 1) with
    | none =>
      rw [hloop] at h
      exact absurd h (by simp)
    | some e =>
      rw [hloop] at h
      cases e with
      | error u =>
        exact absurd h (by simp [Except.map])
      | ok l =>
        simp only [Option.map_some, Except.map, Option.some.injEq] at h
        have hsegs : segs = (((((argmaxLoop (fun u => a (u / m.n) (u % m.n))
            (m.dmax * m.n)).2).getD 0 % m.n),
            ((((argmaxLoop (fun u => a (u / m.n) (u % m.n)) (m.dmax * m.n)).2).getD 0 / m.n)
              + 1)) :: l).reverse := by
          cases h
          rfl
        have hsum := btLoop_sum _ (fun t' d' j' hlt => by
            have := semi_phifun_sentinel qlog m t' d' j' hlt
            exact this)
          (m.T + 1) (m.T : ℤ) _ _ l hloop (by exact_mod_cast hT)
        subst hsegs
        rw [List.map_reverse, List.sum_reverse]
        simp only [List.map_cons, List.sum_cons]
        omega

/-- Claim C3 (witness): a concrete one-observation decode that completes, whose single
segment has duration `1 = T`. -/
theorem c3_witness : (([(0, 1)] : List (ℕ × ℕ)).map Prod.snd).sum = smC3.T :=
  c3_durations_sum_T qlogC smC3 [(0, 1)] (by rfl)

end ClaimC3

section ClaimC6

/-- Claim C6: for any backpointer table whose stored durations are at least 1 (as the
decoder's tables are, since `_get_phi_tj` stores `d_ + 1`) and enough fuel, the
backtracking loop raises exactly when a sentinel backpointer is reached with the cursor,
after subtracting the current duration, away from 0; and when no such bad sentinel is
reachable the loop completes normally with an accumulated segment list. -/
theorem c6_raise_iff_bad_sentinel (ph : ℕ → ℕ → ℕ → Option (ℕ × ℕ))
    (hD : ∀ t' d_ j' p, ph t' d_ j' = some p → 1 ≤ p.2) :
    ∀ (fuel : ℕ) (t : ℤ) (j d : ℕ), 1 ≤ d → t.toNat < fuel →
      (SemiViterbi.btLoop ph fuel t j d = some (.error ()) ↔ SemiViterbi.BadSentinel ph t j d) ∧
      (¬ SemiViterbi.BadSentinel ph t j d →
        ∃ l, SemiViterbi.btLoop ph fuel t j d = some (.ok l)) := by
  intro fuel
  induction fuel with
  | zero =>
    intro t j d _ hfuel
    omega
  | succ fuel ih =>
    intro t j d hd hfuel
    by_cases ht : t ≤ 0
    · rw [SemiViterbi.btLoop, if_pos ht]
      have hnb : ¬ SemiViterbi.BadSentinel ph t j d := by
        intro hb
        cases hb with
        | here h0 _ _ => omega
        | there h0 _ _ => omega
      constructor
      · constructor
        · intro h
          exact absurd h (by simp)
        · intro hb
          exact absurd hb hnb
      · intro _
        exact ⟨[], rfl⟩
    · cases hread : ph (t - 1).toNat (d - 1) j with
      | none =>
        have heq : SemiViterbi.btLoop ph (fuel + 1) t j d =
            if t - (d : ℤ) = 0 then some (.ok []) else some (.error ()) := by
          rw [SemiViterbi.btLoop, if_neg ht, hread]
        rw [heq]
        by_cases hz : t - (d : ℤ) = 0
        · rw [if_pos hz]
          have hnb : ¬ SemiViterbi.BadSentinel ph t j d := by
            intro hb
            cases hb with
            | here _ _ hne => exact hne hz
            | there _ hs _ => rw [hread] at hs; exact absurd hs (by simp)
          constructor
          · constructor
            · intro h
              exact absurd h (by simp)
            · intro hb
              exact absurd hb hnb
          · intro _
            exact ⟨[], rfl⟩
        · rw [if_neg hz]
          have hb : SemiViterbi.BadSentinel ph t j d :=
            SemiViterbi.BadSentinel.here (by omega) hread hz
          constructor
          · exact ⟨fun _ => hb, fun _ => rfl⟩
          · intro hnb
            exact absurd hb hnb
      | some p =>
        obtain ⟨j', d'⟩ := p
        have heq : SemiViterbi.btLoop ph (fuel + 1) t j d =
            (SemiViterbi.btLoop ph fuel (t - (d : ℤ)) j' d').map
              (fun e => e.map (fun l => (j', d') :: l)) := by
          rw [SemiViterbi.btLoop, if_neg ht, hread]
        rw [heq]
        have hd' : 1 ≤ d' := hD _ _ _ _ hread
        have hfuel' : (t - (d : ℤ)).toNat < fuel := by omega
        obtain ⟨ih1, ih2⟩ := ih (t - (d : ℤ)) j' d' hd' hfuel'
        have hbadiff : SemiViterbi.BadSentinel ph t j d ↔
            SemiViterbi.BadSentinel ph (t - (d : ℤ)) j' d' := by
          constructor
          · intro hb
            cases hb with
            | here _ hs _ => rw [hread] at hs; exact absurd hs (by simp)
            | there _ hs hrest =>
              rw [hread] at hs
              simp only [Option.some.injEq, Prod.mk.injEq] at hs
              rw [hs.1, hs.2]
              exact hrest
          · intro hb
            exact SemiViterbi.BadSentinel.there (by omega) hread hb
        constructor
        · constructor
          · intro h
            cases hinner : SemiViterbi.btLoop ph fuel (t - (d : ℤ)) j' d' with
            | none => rw [hinner] at h; exact absurd h (by simp)
            | some e =>
              rw [hinner] at h
              cases e with
              | error u =>
                exact hbadiff.mpr (ih1.mp hinner)
              | ok l => simp [Except.map] at h
          · intro hb
            rw [ih1.mpr (hbadiff.mp hb)]
            rfl
        · intro hnb
          obtain ⟨l, hl⟩ := ih2 (fun hb => hnb (hbadiff.mpr hb))
          rw [hl]
          exact ⟨(j', d') :: l, rfl⟩

/-- Claim C6 (witness): on the all-sentinel table, starting at cursor 1 with duration
1, the sentinel is read with the cursor exactly at 0, and the loop completes normally. -/
theorem c6_witness : ∃ l, SemiViterbi.btLoop phC6 2 1 0 1 = some (.ok l) :=
  (c6_raise_iff_bad_sentinel phC6 (fun _ _ _ _ h => by simp [phC6] at h) 2 1 0 1
    (by decide) (by decide)).2
    (by
      intro hb
      cases hb with
      | here _ _ hne => exact hne (by decide)
      | there _ hs _ => simp [phC6] at hs)

end ClaimC6

section ClaimC10

theorem argmaxLoop_none_of_all_bot (f : ℕ → LogV) (n : ℕ) (h : ∀ i < n, f i = ⊥) :
    (argmaxLoop f n).2 = none := by
  obtain ⟨_, _, h3⟩ := argmaxLoop_spec f n
  cases hmatch : (argmaxLoop f n).2 with
  | none => rfl
  | some i0 =>
    obtain ⟨hi0, _, hne, _, _⟩ := h3 i0 hmatch
    exact absurd (h i0 hi0) hne

/-- One unfolding of the backtracking loop when the read backpointer is the sentinel
and the cursor does not return to 0: the decode raises. -/
theorem btLoop_none_step (ph : ℕ → ℕ → ℕ → Option (ℕ × ℕ)) (fuel : ℕ) (t : ℤ)
    (j d : ℕ) (ht : 0 < t) (hread : ph (t - 1).toNat (d - 1) j = none)
    (hz : t - (d : ℤ) ≠ 0) :
    SemiViterbi.btLoop ph (fuel + 1) t j d = some (.error ()) := by
  rw [SemiViterbi.btLoop, if_neg (by omega), hread, if_neg hz]

/-- Claim C10: a semi-Markov model with exactly one state cannot explain more than
`d_max` observations — the recursive step only considers predecessors `i ≠ j`, so every
recursive delta cell is `-infinity`, the start-of-backtracking phi cell is the sentinel,
and the decode raises with the cursor still at `T - 1 ≠ 0`. -/
theorem c10_single_state_always_raises (qlog : ℚ → ℤ) (m : SemiModel) (hn : m.n = 1)
    (hdmax : 1 ≤ m.dmax) (hT : m.dmax < m.T) :
    SemiViterbi.run_viterbi qlog m = some (.error ()) := by
  obtain ⟨u, hu⟩ : ∃ u, m.T = u + 1 := ⟨m.T - 1, by omega⟩
  have hu1 : 1 ≤ u := by omega
  have hlast : (SemiViterbi.semi_tabs qlog m m.T).1.getLast? =
      some (SemiViterbi.get_delta qlog m (SemiViterbi.semi_tabs qlog m u).1 u) := by
    rw [hu, semi_tabs_succ, if_neg (by omega)]
    exact List.getLast?_concat _
  unfold SemiViterbi.run_viterbi
  simp only [hlast]
  have hargmax : (argmaxLoop
      (fun i => SemiViterbi.get_delta qlog m (SemiViterbi.semi_tabs qlog m u).1 u
        (i / m.n) (i % m.n)) (m.dmax * m.n)).2 = none := by
    apply argmaxLoop_none_of_all_bot
    intro i _
    rw [hn, Nat.mod_one]
    rw [SemiViterbi.get_delta, if_neg (by omega)]
    exact get_dtj_bot_of_one_state qlog m _ u _ hn
  rw [hargmax]
  simp only [Option.getD_none, hn, Nat.mod_one, Nat.zero_div, Nat.div_one]
  have hread : ((fun t d_ j2 =>
      ((SemiViterbi.semi_tabs qlog m m.T).2.getD t fun _ _ => none) d_ j2) :
        ℕ → ℕ → ℕ → Option (ℕ × ℕ)) (((m.T : ℤ) - 1).toNat) (1 - 1) 0 = none := by
    show ((SemiViterbi.semi_tabs qlog m m.T).2.getD (((m.T : ℤ) - 1).toNat)
      (fun _ _ => none)) 0 0 = none
    rw [show ((m.T : ℤ) - 1).toNat = u by omega]
    rw [semi_tabs_snd_getD qlog m (by omega), if_neg (by omega)]
    exact get_phi_tj_none_of_one_state qlog m _ u 1 hn
  rw [btLoop_none_step _ m.T _ 0 1 (by exact_mod_cast Nat.pos_of_ne_zero (by omega))
    hread (by omega)]
  rfl

/-- Claim C10 (witness): the theorem evaluated at a concrete one-state model with
`T = 2 > d_max = 1`: the decode raises. -/
theorem c10_witness : SemiViterbi.run_viterbi qlogC smC10 = some (.error ()) :=
  c10_single_state_always_raises qlogC smC10 rfl (by decide) (by decide)

end ClaimC10

section ClaimC1

theorem mlog_ok_iff (qlog : ℚ → ℤ) (q : ℚ) : (∃ x, mlog qlog q = .ok x) ↔ 0 < q := by
  unfold mlog
  by_cases h : q ≤ 0
  · rw [if_pos h]
    constructor
    · rintro ⟨x, hx⟩
      exact absurd hx (by simp)
    · intro hq
      exact absurd hq (not_lt.mpr h)
  · rw [if_neg h]
    exact ⟨fun _ => not_le.mp h, fun _ => ⟨qlog q, rfl⟩⟩

theorem delta0_row_ok_iff (qlog : ℚ → ℤ) (m : HMMModel) (l : List ℕ) :
    (∃ r, Viterbi.delta0_row qlog m l = .ok r) ↔ ∀ j ∈ l, 0 < m.mu j ∧ 0 < m.b j 0 := by
  induction l with
  | nil =>
    constructor
    · intro _ j hj
      exact absurd hj (List.not_mem_nil j)
    · intro _
      exact ⟨[], rfl⟩
  | cons j rest ih =>
    constructor
    · rintro ⟨r, hr⟩ j' hj'
      rw [Viterbi.delta0_row] at hr
      cases h1 : mlog qlog (m.mu j) with
      | error e =>
        simp only [h1] at hr
        exact absurd hr (by simp)
      | ok x =>
        simp only [h1] at hr
        cases h2 : mlog qlog (m.b j 0) with
        | error e =>
          simp only [h2] at hr
          exact absurd hr (by simp)
        | ok y =>
          simp only [h2] at hr
          cases h3 : Viterbi.delta0_row qlog m rest with
          | error e =>
            simp only [h3] at hr
            exact absurd hr (by simp)
          | ok r' =>
            rcases List.mem_cons.mp hj' with hj1 | hj2
            · subst hj1
              exact ⟨(mlog_ok_iff qlog (m.mu j')).mp ⟨x, h1⟩,
                (mlog_ok_iff qlog (m.b j' 0)).mp ⟨y, h2⟩⟩
            · exact (ih.mp ⟨r', h3⟩) j' hj2
    · intro h
      obtain ⟨x, h1⟩ := (mlog_ok_iff qlog (m.mu j)).mpr (h j (List.mem_cons_self j rest)).1
      obtain ⟨y, h2⟩ := (mlog_ok_iff qlog (m.b j 0)).mpr (h j (List.mem_cons_self j rest)).2
      obtain ⟨r, h3⟩ := ih.mpr (fun j' hj' => h j' (List.mem_cons_of_mem j hj'))
      refine ⟨((x + y : ℤ) : LogV) :: r, ?_⟩
      rw [Viterbi.delta0_row, h1, h2, h3]

theorem hmm_step_pos_ok (qlog : ℚ → ℤ) (m : HMMModel) (st : Viterbi.HSt) (k : ℕ)
    (hk : k ≠ 0) :
    Viterbi.hmm_step qlog m st k =
      .ok ⟨st.deltas ++ [Viterbi.dtj_row qlog m st.deltas k],
        st.phis ++ [Viterbi.phi_row qlog m st.deltas k]⟩ := by
  rw [Viterbi.hmm_step, if_neg hk]

theorem gdp_ok_iff (qlog : ℚ → ℤ) (m : HMMModel) (st : Viterbi.HSt) (k : ℕ)
    (hk : 1 ≤ k) :
    (∃ st', Viterbi.gdp qlog m st k = .ok st') ↔ (∃ r, Viterbi.delta0 qlog m = .ok r) := by
  induction k with
  | zero => omega
  | succ k ih =>
    by_cases hk0 : k = 0
    · subst hk0
      have h0 : Viterbi.gdp qlog m st 1 = Viterbi.hmm_step qlog m st 0 := by
        rw [Viterbi.gdp, Viterbi.gdp]
      rw [h0, Viterbi.hmm_step, if_pos rfl]
      cases hd : Viterbi.delta0 qlog m with
      | error e =>
        simp only [hd]
        constructor
        · rintro ⟨st', hst⟩
          exact absurd hst (by simp)
        · rintro ⟨r, hr⟩
          exact absurd hr (by simp)
      | ok r =>
        simp only [hd]
        exact ⟨fun _ => ⟨r, rfl⟩, fun _ => ⟨_, rfl⟩⟩
    · have hk1 : 1 ≤ k := by omega
      rw [← ih hk1]
      rw [Viterbi.gdp]
      cases hg : Viterbi.gdp qlog m st k with
      | error e =>
        simp [hg]
      | ok st' =>
        simp only [hg]
        rw [hmm_step_pos_ok qlog m st' k hk0]
        exact ⟨fun _ => ⟨st', rfl⟩, fun _ => ⟨_, rfl⟩⟩

/-- Claim C1 (counterexample): a valid model — `mu = [1, 0]` sums to 1, the identity
transition matrix is row-stochastic, emission probability 1 — whose zero initial
probability makes the HMM decoder raise `ValueError` in the time-0 initialisation
`log(mu[j]) + log(b(j, o_0))` instead of producing `-infinity`. -/
theorem c1_counterexample :
    mC1.mu 0 + mC1.mu 1 = 1 ∧ mC1.A 0 0 + mC1.A 0 1 = 1 ∧ mC1.A 1 0 + mC1.A 1 1 = 1 ∧
      mC1.mu 1 = 0 ∧ Viterbi.run_viterbi qlogC mC1 Viterbi.hmmEmpty = .error () := by
  refine ⟨by norm_num [mC1], by norm_num [mC1], by norm_num [mC1], by norm_num [mC1], rfl⟩

/-- Claim C1 (amended): the `t ≥ 1` recursion of the HMM decoder substitutes
`-infinity` for zero transition/emission probabilities without error (and the
semi-Markov decoder's `numpy` logs never raise), but the time-0 initialisation uses an
unguarded `math.log`: for `T ≥ 1` and nonnegative probabilities, the forward pass
succeeds exactly when every `mu[j]` and every `b(j, o_0)` is nonzero. -/
theorem c1_amended (qlog : ℚ → ℤ) (m : HMMModel) (hT : 1 ≤ m.T)
    (hmu : ∀ j < m.n, 0 ≤ m.mu j) (hb : ∀ j < m.n, 0 ≤ m.b j 0) :
    (∃ st, Viterbi.get_deltas_and_phis qlog m Viterbi.hmmEmpty = .ok st) ↔
      ∀ j < m.n, m.mu j ≠ 0 ∧ m.b j 0 ≠ 0 := by
  unfold Viterbi.get_deltas_and_phis
  rw [gdp_ok_iff qlog m _ m.T hT]
  unfold Viterbi.delta0
  rw [delta0_row_ok_iff]
  constructor
  · intro h j hj
    have hpos := h j (List.mem_range.mpr hj)
    exact ⟨ne_of_gt hpos.1, ne_of_gt hpos.2⟩
  · intro h j hj
    have hj' := List.mem_range.mp hj
    exact ⟨lt_of_le_of_ne (hmu j hj') (Ne.symm (h j hj').1),
      lt_of_le_of_ne (hb j hj') (Ne.symm (h j hj').2)⟩

/-- Claim C1 (witness): the amended statement evaluated at a concrete all-positive
model: the forward pass succeeds. -/
theorem c1_witness :
    ∃ st, Viterbi.get_deltas_and_phis qlogC mPos1 Viterbi.hmmEmpty = .ok st :=
  (c1_amended qlogC mPos1 (by decide) (fun j _ => by norm_num [mPos1])
    (fun j _ => by norm_num [mPos1])).mpr
    (fun j _ => by norm_num [mPos1])

end ClaimC1

section ClaimC8

theorem gdp_lengths (qlog : ℚ → ℤ) (m : HMMModel) (st : Viterbi.HSt) (k : ℕ) :
    ∀ st', Viterbi.gdp qlog m st k = .ok st' →
      st'.deltas.length = st.deltas.length + k ∧ st'.phis.length = st.phis.length + k := by
  induction k with
  | zero =>
    intro st' h
    have : st' = st := by
      cases h
      rfl
    subst this
    exact ⟨rfl, rfl⟩
  | succ k ih =>
    intro st' h
    rw [Viterbi.gdp] at h
    cases hg : Viterbi.gdp qlog m st k with
    | error e =>
      simp only [hg] at h
      exact absurd h (by simp)
    | ok st'' =>
      simp only [hg] at h
      obtain ⟨ih1, ih2⟩ := ih st'' hg
      unfold Viterbi.hmm_step at h
      by_cases hk0 : k = 0
      · rw [if_pos hk0] at h
        cases hd : Viterbi.delta0 qlog m with
        | error e =>
          simp only [hd] at h
          exact absurd h (by simp)
        | ok r0 =>
          simp only [hd] at h
          have : st' = ⟨st''.deltas ++ [r0], st''.phis ++ [List.replicate m.n (some 0)]⟩ := by
            cases h
            rfl
          subst this
          simp only [List.length_append, List.length_singleton]
          omega
      · rw [if_neg hk0] at h
        have : st' = ⟨st''.deltas ++ [Viterbi.dtj_row qlog m st''.deltas k],
            st''.phis ++ [Viterbi.phi_row qlog m st''.deltas k]⟩ := by
          cases h
          rfl
        subst this
        simp only [List.length_append, List.length_singleton]
        omega

theorem backtrack_length (rows : List (List (Option ℕ))) :
    ∀ (acc p : List (Option ℕ)), Viterbi.backtrack rows acc = .ok p →
      p.length = rows.length + acc.length := by
  induction rows with
  | nil =>
    intro acc p h
    have : p = acc := by
      cases h
      rfl
    subst this
    simp
  | cons row rest ih =>
    intro acc p h
    rw [Viterbi.backtrack] at h
    cases hh : acc.head? with
    | none =>
      rw [hh] at h
      exact absurd h (by simp)
    | some c =>
      cases c with
      | none =>
        rw [hh] at h
        exact absurd h (by simp)
      | some c' =>
        rw [hh] at h
        have := ih (row.getD c' none :: acc) p h
        simp only [List.length_cons] at this ⊢
        omega

/-- Claim C8 (counterexample): the HMM decoder's tables live on the object, so a second
`run_viterbi` call on the same decoder appends a second pass of rows and returns a
path of length `2T`, different from the first call's path. -/
theorem c8_counterexample :
    Viterbi.run_viterbi qlogC mPos1 Viterbi.hmmEmpty = .ok (st1C, [some 0]) ∧
    Viterbi.run_viterbi qlogC mPos1 st1C = .ok (st2C, [some 0, some 0]) ∧
    ([some 0] : List (Option ℕ)) ≠ [some 0, some 0] :=
  ⟨rfl, rfl, by decide⟩

/-- Claim C8 (amended): decode results are pure functions of the model and the decoder
state, and the semi-Markov decoder reassigns its tables fresh on every decode; but the
HMM decoder's tables are created in `__init__` and appended to by every call, so a
successful `run_viterbi` returns a path of length (previous phi-table length) + `T` —
`T` on a fresh decoder, `2T` on the second call of the same decoder. -/
theorem c8_amended (qlog : ℚ → ℤ) (m : HMMModel) (st st' : Viterbi.HSt)
    (path : List (Option ℕ)) (hT : 1 ≤ m.T)
    (h : Viterbi.run_viterbi qlog m st = .ok (st', path)) :
    st'.deltas.length = st.deltas.length + m.T ∧
    st'.phis.length = st.phis.length + m.T ∧
    path.length = st.phis.length + m.T := by
  unfold Viterbi.run_viterbi at h
  cases hg : Viterbi.get_deltas_and_phis qlog m st with
  | error e =>
    rw [hg] at h
    exact absurd h (by simp)
  | ok st'' =>
    rw [hg] at h
    obtain ⟨hl1, hl2⟩ := gdp_lengths qlog m st m.T st'' hg
    cases hlast : st''.deltas.getLast? with
    | none =>
      simp only [hlast] at h
      exact absurd h (by simp)
    | some lr =>
      simp only [hlast] at h
      by_cases he : lr.isEmpty
      · rw [if_pos he] at h
        exact absurd h (by simp)
      · rw [if_neg he] at h
        cases hb : Viterbi.backtrack (st''.phis.drop 1).reverse
            [some (Viterbi.idx_of_max lr)] with
        | error e =>
          rw [hb] at h
          exact absurd h (by simp)
        | ok p =>
          rw [hb] at h
          obtain ⟨h1, h2⟩ : st' = st'' ∧ path = p := by
            cases h
            exact ⟨rfl, rfl⟩
          subst h1
          subst h2
          have hp := backtrack_length _ _ _ hb
          simp only [List.length_reverse, List.length_drop, List.length_cons,
            List.length_nil] at hp
          refine ⟨hl1, hl2, ?_⟩
          omega

/-- Claim C8 (witness): the amended length law evaluated on the concrete first decode
of a fresh one-state decoder. -/
theorem c8_witness :
    st1C.deltas.length = Viterbi.hmmEmpty.deltas.length + mPos1.T ∧
    st1C.phis.length = Viterbi.hmmEmpty.phis.length + mPos1.T ∧
    ([some 0] : List (Option ℕ)).length = Viterbi.hmmEmpty.phis.length + mPos1.T :=
  c8_amended qlogC mPos1 Viterbi.hmmEmpty st1C [some 0] (by decide) rfl

end ClaimC8

section ClaimC7Lemmas

theorem row_d_length (qlog : ℚ → ℤ) (m : HMMModel) (t : ℕ) :
    (Viterbi.row_d qlog m t).length = m.n := by
  cases t with
  | zero => simp [Viterbi.row_d, Viterbi.dRow0]
  | succ t => simp [Viterbi.row_d]

theorem delta0_row_pos (qlog : ℚ → ℤ) (m : HMMModel) (l : List ℕ)
    (h : ∀ j ∈ l, 0 < m.mu j ∧ 0 < m.b j 0) :
    Viterbi.delta0_row qlog m l =
      .ok (l.map (fun j => ((qlog (m.mu j) + qlog (m.b j 0) : ℤ) : LogV))) := by
  induction l with
  | nil => rfl
  | cons j rest ih =>
    have h1 : mlog qlog (m.mu j) = .ok (qlog (m.mu j)) := by
      rw [mlog, if_neg (not_le.mpr (h j (List.mem_cons_self j rest)).1)]
    have h2 : mlog qlog (m.b j 0) = .ok (qlog (m.b j 0)) := by
      rw [mlog, if_neg (not_le.mpr (h j (List.mem_cons_self j rest)).2)]
    rw [Viterbi.delta0_row, h1, h2, ih (fun j' hj' => h j' (List.mem_cons_of_mem j hj'))]
    rfl

theorem delta0_pos (qlog : ℚ → ℤ) (m : HMMModel)
    (hmu : ∀ j < m.n, 0 < m.mu j) (hb : ∀ j < m.n, 0 < m.b j 0) :
    Viterbi.delta0 qlog m = .ok (Viterbi.dRow0 qlog m) := by
  unfold Viterbi.delta0 Viterbi.dRow0
  exact delta0_row_pos qlog m (List.range m.n)
    (fun j hj => ⟨hmu j (List.mem_range.mp hj), hb j (List.mem_range.mp hj)⟩)

theorem dtj_row_eq_row_d (qlog : ℚ → ℤ) (m : HMMModel) (u : ℕ) :
    Viterbi.dtj_row qlog m ((List.range (u + 1)).map (Viterbi.row_d qlog m)) (u + 1) =
      Viterbi.row_d qlog m (u + 1) := by
  have hdp : Viterbi.dp_of ((List.range (u + 1)).map (Viterbi.row_d qlog m)) (u + 1) =
      fun i => (Viterbi.row_d qlog m u).getD i ⊥ := by
    funext i
    unfold Viterbi.dp_of
    rw [show u + 1 - 1 = u from rfl, getD_map_range (Viterbi.row_d qlog m) (Nat.lt_succ_self u)]
  rw [Viterbi.dtj_row, hdp]
  rfl

theorem phi_row_eq_phi_row_d (qlog : ℚ → ℤ) (m : HMMModel) (u : ℕ) :
    Viterbi.phi_row qlog m ((List.range (u + 1)).map (Viterbi.row_d qlog m)) (u + 1) =
      Viterbi.phi_row_d qlog m (u + 1) := by
  have hdp : Viterbi.dp_of ((List.range (u + 1)).map (Viterbi.row_d qlog m)) (u + 1) =
      fun i => (Viterbi.row_d qlog m u).getD i ⊥ := by
    funext i
    unfold Viterbi.dp_of
    rw [show u + 1 - 1 = u from rfl, getD_map_range (Viterbi.row_d qlog m) (Nat.lt_succ_self u)]
  rw [Viterbi.phi_row, hdp]
  rfl

/-- An error-free fresh decode fills the tables with exactly the pure rows. -/
theorem gdp_fresh (qlog : ℚ → ℤ) (m : HMMModel)
    (hd : Viterbi.delta0 qlog m = .ok (Viterbi.dRow0 qlog m)) :
    ∀ k, Viterbi.gdp qlog m Viterbi.hmmEmpty k =
      .ok ⟨(List.range k).map (Viterbi.row_d qlog m),
        (List.range k).map (Viterbi.phi_row_d qlog m)⟩ := by
  intro k
  induction k with
  | zero => rfl
  | succ k ih =>
    rw [Viterbi.gdp]
    simp only [ih]
    unfold Viterbi.hmm_step
    by_cases hk : k = 0
    · subst hk
      rw [if_pos rfl, hd]
      rfl
    · rw [if_neg hk]
      obtain ⟨u, hu⟩ : ∃ u, k = u + 1 := ⟨k - 1, by omega⟩
      subst hu
      simp only
      rw [dtj_row_eq_row_d qlog m u, phi_row_eq_phi_row_d qlog m u]
      rw [show (List.range (u + 1 + 1)).map (Viterbi.row_d qlog m) =
        (List.range (u + 1)).map (Viterbi.row_d qlog m) ++ [Viterbi.row_d qlog m (u + 1)] by
          rw [List.range_succ, List.map_append, List.map_singleton]]
      rw [show (List.range (u + 1 + 1)).map (Viterbi.phi_row_d qlog m) =
        (List.range (u + 1)).map (Viterbi.phi_row_d qlog m) ++
          [Viterbi.phi_row_d qlog m (u + 1)] by
          rw [List.range_succ, List.map_append, List.map_singleton]]

/-- The reversed tail of the phi table visited by backtracking, in pure-row form. -/
theorem drop_reverse_phi_rows (qlog : ℚ → ℤ) (m : HMMModel) :
    ∀ k, (((List.range (k + 1)).map (Viterbi.phi_row_d qlog m)).drop 1).reverse =
      Viterbi.phiRowsRev qlog m k := by
  intro k
  induction k with
  | zero => rfl
  | succ k ih =>
    rw [show (List.range (k + 1 + 1)).map (Viterbi.phi_row_d qlog m) =
      (List.range (k + 1)).map (Viterbi.phi_row_d qlog m) ++
        [Viterbi.phi_row_d qlog m (k + 1)] by
        rw [List.range_succ, List.map_append, List.map_singleton]]
    rw [drop_one_append (by simp), List.reverse_append, List.reverse_singleton]
    rw [List.singleton_append, ih]
    rfl

theorem idx_of_max_spec (l : List LogV) (h : ∃ i, i < l.length ∧ l.getD i ⊥ ≠ ⊥) :
    Viterbi.idx_of_max l < l.length ∧ l.getD (Viterbi.idx_of_max l) ⊥ ≠ ⊥ := by
  obtain ⟨_, h2, h3⟩ := argmaxLoop_spec (fun i => l.getD i ⊥) l.length
  unfold Viterbi.idx_of_max
  cases hmatch : (argmaxLoop (fun i => l.getD i ⊥) l.length).2 with
  | none =>
    obtain ⟨i, hi, hne⟩ := h
    exact absurd ((h2 hmatch).2 i hi) hne
  | some i0 =>
    obtain ⟨hi0, _, hne, _, _⟩ := h3 i0 hmatch
    exact ⟨hi0, hne⟩

end ClaimC7Lemmas

section ClaimC7Invariants

/-- Under positive `mu`, positive emissions and a positive entry in every transition
row, every delta row of the decode (before time `T`) has a finite entry. -/
theorem row_d_has_finite (qlog : ℚ → ℤ) (m : HMMModel) (hn : 1 ≤ m.n)
    (hmu : ∀ j < m.n, 0 < m.mu j) (hb : ∀ j < m.n, ∀ t < m.T, 0 < m.b j t)
    (hA : ∀ i < m.n, ∃ j, j < m.n ∧ 0 < m.A i j) :
    ∀ t, t < m.T → ∃ i, i < m.n ∧ (Viterbi.row_d qlog m t).getD i ⊥ ≠ ⊥ := by
  intro t
  induction t with
  | zero =>
    intro _
    refine ⟨0, hn, ?_⟩
    rw [Viterbi.row_d, Viterbi.dRow0, getD_map_range _ hn]
    exact WithBot.coe_ne_bot
  | succ t ih =>
    intro ht
    obtain ⟨i0, hi0, hfin⟩ := ih (by omega)
    obtain ⟨j0, hj0, hApos⟩ := hA i0 hi0
    refine ⟨j0, hj0, ?_⟩
    rw [Viterbi.row_d, getD_map_range _ hj0]
    have hcand : Viterbi.dtj_cand qlog m (fun i => (Viterbi.row_d qlog m t).getD i ⊥)
        (t + 1) j0 i0 ≠ ⊥ := by
      unfold Viterbi.dtj_cand
      rw [if_neg (by push_neg; exact ⟨hApos, hb j0 hj0 (t + 1) ht⟩)]
      intro hbot
      rcases WithBot.add_eq_bot.mp hbot with h' | h'
      · rcases WithBot.add_eq_bot.mp h' with h'' | h''
        · exact WithBot.coe_ne_bot h''
        · exact hfin h''
      · exact WithBot.coe_ne_bot h' 
    unfold Viterbi.get_dtj
    rw [maxLoop_ne_bot_iff]
    exact ⟨i0, hi0, hcand⟩

/-- If a delta cell at time `t+1` is finite, the phi cell the backtracking pass reads
there is a valid state index whose delta cell at time `t` is finite in turn. -/
theorem phi_step (qlog : ℚ → ℤ) (m : HMMModel) (t cur : ℕ) (hcur : cur < m.n)
    (hfin : (Viterbi.row_d qlog m (t + 1)).getD cur ⊥ ≠ ⊥) :
    ∃ i', Viterbi.get_phi_tj qlog m (fun i => (Viterbi.row_d qlog m t).getD i ⊥) cur
        = some i' ∧ i' < m.n ∧ (Viterbi.row_d qlog m t).getD i' ⊥ ≠ ⊥ := by
  rw [Viterbi.row_d, getD_map_range _ hcur] at hfin
  unfold Viterbi.get_dtj at hfin
  rw [maxLoop_ne_bot_iff] at hfin
  obtain ⟨i, hi, hci⟩ := hfin
  unfold Viterbi.dtj_cand at hci
  by_cases hcond : m.A i cur ≤ 0 ∨ m.b cur (t + 1) ≤ 0
  · rw [if_pos hcond] at hci
    exact absurd rfl hci
  · rw [if_neg hcond] at hci
    push_neg at hcond
    have hdp : (Viterbi.row_d qlog m t).getD i ⊥ ≠ ⊥ := by
      intro hb2
      apply hci
      rcases WithBot.add_eq_bot.mp (WithBot.add_eq_bot.mpr
        (Or.inl (WithBot.add_eq_bot.mpr (Or.inr hb2)))) with h' | h'
      · exact WithBot.add_eq_bot.mpr (Or.inl h')
      · exact WithBot.add_eq_bot.mpr (Or.inl (WithBot.add_eq_bot.mpr (Or.inr h')))
    have hphic : Viterbi.phi_cand qlog m
        (fun i2 => (Viterbi.row_d qlog m t).getD i2 ⊥) cur i ≠ ⊥ := by
      unfold Viterbi.phi_cand
      rw [if_neg (not_le.mpr hcond.1)]
      intro hbot
      rcases WithBot.add_eq_bot.mp hbot with h' | h'
      · exact WithBot.coe_ne_bot h'
      · exact hdp h' 
    obtain ⟨_, h2, h3⟩ := argmaxLoop_spec
      (fun i2 => Viterbi.phi_cand qlog m
        (fun i3 => (Viterbi.row_d qlog m t).getD i3 ⊥) cur i2) m.n
    unfold Viterbi.get_phi_tj
    cases hmatch : (argmaxLoop
        (fun i2 => Viterbi.phi_cand qlog m
          (fun i3 => (Viterbi.row_d qlog m t).getD i3 ⊥) cur i2) m.n).2 with
    | none =>
      exact absurd ((h2 hmatch).2 i hi) hphic
    | some i' =>
      obtain ⟨hi', _, hne', _, _⟩ := h3 i' hmatch
      refine ⟨i', rfl, hi', ?_⟩
      unfold Viterbi.phi_cand at hne'
      by_cases hcond' : m.A i' cur ≤ 0
      · rw [if_pos hcond'] at hne'
        exact absurd rfl hne'
      · rw [if_neg hcond'] at hne'
        rw [ne_eq, WithBot.add_eq_bot] at hne'
        push_neg at hne'
        exact hne'.2

/-- The backtracking walk from a finite delta cell consumes all the remaining phi rows
and produces only valid state indices. -/
theorem backtrack_walk (qlog : ℚ → ℤ) (m : HMMModel) :
    ∀ t cur, cur < m.n → (Viterbi.row_d qlog m t).getD cur ⊥ ≠ ⊥ →
      ∀ acc, ∃ p,
        Viterbi.backtrack (Viterbi.phiRowsRev qlog m t) (some cur :: acc) = .ok p ∧
        p.length = (t + 1) + acc.length ∧
        ∀ x ∈ p, (∃ i, i < m.n ∧ x = some i) ∨ x ∈ acc := by
  intro t
  induction t with
  | zero =>
    intro cur hcur _ acc
    refine ⟨some cur :: acc, rfl, by simp only [List.length_cons]; omega, ?_⟩
    intro x hx
    rcases List.mem_cons.mp hx with h | h
    · exact Or.inl ⟨cur, hcur, h⟩
    · exact Or.inr h
  | succ t ih =>
    intro cur hcur hfin acc
    obtain ⟨i', hphi, hi', hfin'⟩ := phi_step qlog m t cur hcur hfin
    have hrow : (Viterbi.phi_row_d qlog m (t + 1)).getD cur none =
        Viterbi.get_phi_tj qlog m (fun i => (Viterbi.row_d qlog m t).getD i ⊥) cur := by
      rw [Viterbi.phi_row_d, getD_map_range _ hcur]
    have hstep : Viterbi.backtrack (Viterbi.phiRowsRev qlog m (t + 1)) (some cur :: acc) =
        Viterbi.backtrack (Viterbi.phiRowsRev qlog m t)
          ((Viterbi.phi_row_d qlog m (t + 1)).getD cur none :: some cur :: acc) := rfl
    rw [hstep, hrow, hphi]
    obtain ⟨p, hp, hlen, hmem⟩ := ih i' hi' hfin' (some cur :: acc)
    refine ⟨p, hp, ?_, ?_⟩
    · simp only [List.length_cons] at hlen
      omega
    · intro x hx
      rcases hmem x hx with h | h
      · exact Or.inl h
      · rcases List.mem_cons.mp h with h2 | h2
        · exact Or.inl ⟨cur, hcur, h2⟩
        · exact Or.inr h2

end ClaimC7Invariants

section ClaimC7

theorem exists_pos_of_row_sum_one (m : HMMModel) (i : ℕ)
    (h1 : ∀ j < m.n, 0 ≤ m.A i j)
    (h2 : (Finset.range m.n).sum (fun j => m.A i j) = 1) :
    ∃ j, j < m.n ∧ 0 < m.A i j := by
  by_contra hc
  push_neg at hc
  have hz : (Finset.range m.n).sum (fun j => m.A i j) = 0 := by
    apply Finset.sum_eq_zero
    intro j hj
    have hj' := Finset.mem_range.mp hj
    exact le_antisymm (hc j hj') (h1 j hj')
  rw [hz] at h2
  exact absurd h2 (by norm_num)

theorem half_eq : half = 1 / 2 := by
  have h := Rat.num_div_den half
  rw [show half.num = 1 from rfl, show half.den = 2 from rfl] at h
  push_cast at h
  exact h.symm

/-- Claim C7 (counterexample): two failures on valid row-stochastic matrices and valid
distributions.  With `mu = [1, 0]` the decode raises (no path at all).  With positive
`mu` but an all-zero transition column and a zero emission at time 1, the decode
returns the path `[None, 0]`, whose first element is not a state index. -/
theorem c7_counterexample :
    mC7b.mu 0 + mC7b.mu 1 = 1 ∧
    mC7b.A 0 0 + mC7b.A 0 1 = 1 ∧ mC7b.A 1 0 + mC7b.A 1 1 = 1 ∧
    (Viterbi.run_viterbi qlogC mC7b Viterbi.hmmEmpty).map (fun r => r.2) =
      .ok [none, some 0] ∧
    mC1.mu 0 + mC1.mu 1 = 1 ∧ mC1.A 0 0 + mC1.A 0 1 = 1 ∧ mC1.A 1 0 + mC1.A 1 1 = 1 ∧
    Viterbi.run_viterbi qlogC mC1 Viterbi.hmmEmpty = .error () := by
  refine ⟨?_, by norm_num [mC7b], by norm_num [mC7b], rfl,
    by norm_num [mC1], by norm_num [mC1], by norm_num [mC1], rfl⟩
  show half + half = 1
  rw [half_eq]
  norm_num

/-- Claim C7 (amended): for a row-stochastic transition matrix, a strictly positive
initial distribution and strictly positive emission values, `run_viterbi` on a fresh
decoder returns a path of length exactly `T` whose elements are all valid state indices
in `[0, n)`.  (Strict positivity is needed: a zero `mu[j]` raises at initialisation, and
zero emissions can leave `None` backpointers on the optimal chain.) -/
theorem c7_amended (qlog : ℚ → ℤ) (m : HMMModel) (hn : 1 ≤ m.n) (hT : 1 ≤ m.T)
    (hmu : ∀ j < m.n, 0 < m.mu j)
    (hb : ∀ j < m.n, ∀ t < m.T, 0 < m.b j t)
    (hA : ∀ i < m.n, (∀ j < m.n, 0 ≤ m.A i j) ∧
      (Finset.range m.n).sum (fun j => m.A i j) = 1) :
    ∃ st path, Viterbi.run_viterbi qlog m Viterbi.hmmEmpty = .ok (st, path) ∧
      path.length = m.T ∧ ∀ x ∈ path, ∃ i, i < m.n ∧ x = some i := by
  have hA' : ∀ i < m.n, ∃ j, j < m.n ∧ 0 < m.A i j :=
    fun i hi => exists_pos_of_row_sum_one m i (hA i hi).1 (hA i hi).2
  have hd : Viterbi.delta0 qlog m = .ok (Viterbi.dRow0 qlog m) :=
    delta0_pos qlog m hmu (fun j hj => hb j hj 0 (by omega))
  obtain ⟨u, hu⟩ : ∃ u, m.T = u + 1 := ⟨m.T - 1, by omega⟩
  have hg : Viterbi.get_deltas_and_phis qlog m Viterbi.hmmEmpty =
      .ok ⟨(List.range m.T).map (Viterbi.row_d qlog m),
        (List.range m.T).map (Viterbi.phi_row_d qlog m)⟩ := by
    unfold Viterbi.get_deltas_and_phis
    exact gdp_fresh qlog m hd m.T
  have hlast : ((List.range m.T).map (Viterbi.row_d qlog m)).getLast? =
      some (Viterbi.row_d qlog m u) := by
    rw [hu, List.range_succ, List.map_append, List.map_singleton]
    exact List.getLast?_concat _
  have hfin := row_d_has_finite qlog m hn hmu hb hA' u (by omega)
  have hfin' : ∃ i, i < (Viterbi.row_d qlog m u).length ∧
      (Viterbi.row_d qlog m u).getD i ⊥ ≠ ⊥ := by
    obtain ⟨i, hi, hne⟩ := hfin
    refine ⟨i, ?_, hne⟩
    rw [row_d_length]
    exact hi
  obtain ⟨hidx, hival⟩ := idx_of_max_spec (Viterbi.row_d qlog m u) hfin'
  rw [row_d_length] at hidx
  obtain ⟨p, hbk, hplen, hpmem⟩ := backtrack_walk qlog m u
    (Viterbi.idx_of_max (Viterbi.row_d qlog m u)) hidx hival []
  have hemp : (Viterbi.row_d qlog m u).isEmpty = false := by
    have hlen : 0 < (Viterbi.row_d qlog m u).length := by
      rw [row_d_length]
      omega
    cases hcase : Viterbi.row_d qlog m u with
    | nil =>
      rw [hcase] at hlen
      simp at hlen
    | cons a l => rfl
  have hrows : (((List.range m.T).map (Viterbi.phi_row_d qlog m)).drop 1).reverse =
      Viterbi.phiRowsRev qlog m u := by
    rw [hu]
    exact drop_reverse_phi_rows qlog m u
  refine ⟨⟨(List.range m.T).map (Viterbi.row_d qlog m),
    (List.range m.T).map (Viterbi.phi_row_d qlog m)⟩, p, ?_, ?_, ?_⟩
  · unfold Viterbi.run_viterbi
    simp only [hg, hlast, hemp]
    rw [if_neg (by simp)]
    rw [hrows, hbk]
  · rw [hplen, hu]
    simp
  · intro x hx
    rcases hpmem x hx with h | h
    · exact h
    · exact absurd h (List.not_mem_nil x)

/-- Claim C7 (witness): the amended statement evaluated at a concrete one-state
model with all probabilities 1. -/
theorem c7_witness :
    ∃ st path, Viterbi.run_viterbi qlogC mPos1 Viterbi.hmmEmpty = .ok (st, path) ∧
      path.length = mPos1.T ∧ ∀ x ∈ path, ∃ i, i < mPos1.n ∧ x = some i :=
  c7_amended qlogC mPos1 (by decide) (by decide)
    (fun _ _ => by norm_num [mPos1])
    (fun _ _ _ _ => by norm_num [mPos1])
    (fun _ _ => ⟨fun _ _ => by norm_num [mPos1], by simp [mPos1]⟩)

end ClaimC7
